import Mathlib

/- A shallow embedding of gbpng.py, a codec between RGBA images and the
   Game Boy planar 2bpp tile format.  Python integers are modelled as Nat
   (every quantity in the program is nonnegative), Python lists and tuples
   of bytes as List Nat, and code that can raise an exception as Except. -/

/-- Python errors the codec can raise: ValueError from list.index, carrying
the value that was not found, and IndexError from a list subscript. -/
inductive PyErr where
  | valueError (x : List Nat)
  | indexError
  deriving DecidableEq, Repr

/-- An RGBA color, modelled as the Python tuple of channel values.  The
program builds colors with tuple(line[i:i+4]), which can be shorter than
four entries on a malformed row, so a plain list is the faithful model. -/
abbrev Color := List Nat

/-- Python list.index: position of the first exact match, ValueError otherwise. -/
def list_index (l : List Color) (c : Color) : Except PyErr Nat :=
  match l with
  | [] => .error (.valueError c)
  | p :: rest => if p = c then .ok 0 else (list_index rest c).map (· + 1)

/-- Python list subscription with a nonnegative index: IndexError out of range. -/
def list_get {α : Type} : List α → Nat → Except PyErr α
  | [], _ => .error .indexError
  | a :: _, 0 => .ok a
  | _ :: rest, n + 1 => list_get rest n

/-- The fixed greyscale ramp of pad_palette, in source order
[white, black, grey, gray]. -/
def greyscale : List Color :=
  [[0xff, 0xff, 0xff, 0xff], [0x00, 0x00, 0x00, 0xff],
   [0x55, 0x55, 0x55, 0xff], [0xaa, 0xaa, 0xaa, 0xff]]

/-- Python tuple comparison: lexicographic, a strict prefix sorts first. -/
def tupleLe : List Nat → List Nat → Bool
  | [], _ => true
  | _ :: _, [] => false
  | a :: as, b :: bs => if a < b then true else if b < a then false else tupleLe as bs

/-- Stable insertion of an element before the first y with le x y. -/
def insort (le : Color → Color → Bool) (x : Color) : List Color → List Color
  | [] => [x]
  | y :: ys => if le x y then x :: y :: ys else y :: insort le x ys

/-- Python sorted, as a stable insertion sort; sorted(l, reverse=True) is
pysorted with the reversed comparison. -/
def pysorted (le : Color → Color → Bool) : List Color → List Color
  | [] => []
  | x :: xs => insort le x (pysorted le xs)

/-- The hue-appending loop of pad_palette: for each ramp hue in turn, stop
once the palette has 4 entries, and append the hue when it is not already
present. -/
def padLoop : List Color → List Color → List Color
  | [], palette => palette
  | hue :: rest, palette =>
    if palette.length ≥ 4 then palette
    else if hue ∈ palette then padLoop rest palette
    else padLoop rest (palette ++ [hue])

/-- pad_palette: pad out smaller palettes with greyscale colors.  An absent
palette (Python None) is passed as []. -/
def pad_palette (palette : List Color) : List Color :=
  if palette = [] then pysorted (fun a b => tupleLe b a) greyscale
  else padLoop greyscale palette

/-- get_unaligned_image_padding: padding amounts (left, right, top, bottom)
for the given dimensions and tile dimensions; the source defaults both tile
dimensions to 8 and every caller uses that default.  Python 2 integer
division on nonnegative ints is Nat division. -/
def get_unaligned_image_padding (width height tile_width tile_height : Nat) :
    Nat × Nat × Nat × Nat :=
  let padw := width % tile_width
  let lr : Nat × Nat :=
    if padw ≠ 0 ∧ width > tile_width then (padw / 2 + padw % 2, padw / 2) else (0, 0)
  let padh := height % tile_height
  let tb : Nat × Nat :=
    if padh ≠ 0 ∧ height > tile_height then (padh / 2 + padh % 2, padh / 2) else (0, 0)
  (lr.1, lr.2, tb.1, tb.2)

/-- One row of the pixel loop of png_to_gb: walk the flat RGBA byte row four
bytes at a time (Python xrange(0, len(line), 4)), looking each tuple
line[i:i+4] up in the palette; a trailing tuple of fewer than four bytes is
looked up as well, exactly as in Python.  The first missing color aborts
with its ValueError. -/
def quantizeLine (palette : List Color) : List Nat → Except PyErr (List Nat)
  | [] => .ok []
  | a :: b :: c :: d :: rest => do
    let index ← list_index palette [a, b, c, d]
    let q ← quantizeLine palette rest
    return index :: q
  | short => do
    let index ← list_index palette short
    return [index]

/-- The per-row loop of png_to_gb: left padding cells, then the quantized
pixels, then right padding cells, over all rgba rows in order. -/
def quantizeLines (palette : List Color) (left right : Nat) :
    List (List Nat) → Except PyErr (List Nat)
  | [] => .ok []
  | line :: rest => do
    let q ← quantizeLine palette line
    let qr ← quantizeLines palette left right rest
    return List.replicate left 0 ++ q ++ List.replicate right 0 ++ qr

/-- The two planar bytes computed by the innermost loop of png_to_gb from one
row of up to eight indices: bit 7-i of the first (bottom) byte is bit 0 of
the i-th index, bit 7-i of the second (top) byte is bit 1 of the i-th index. -/
def packRow (line : List Nat) : Nat × Nat :=
  line.enum.foldl
    (fun acc p =>
      (acc.1 + ((p.2 &&& 1) <<< (7 - p.1)), acc.2 + (((p.2 >>> 1) &&& 1) <<< (7 - p.1))))
    (0, 0)

/-- Python xrange(0, stop, step): the multiples of step below stop. -/
def rangeStep (stop step : Nat) : List Nat :=
  (List.range ((stop + step - 1) / step)).map (· * step)

/-- The planar-packing loops of png_to_gb: for each 8x8 block of the
quantized map, emit the two planar bytes of each of its eight pixel rows.
Python list slicing qmap[i:i+8] is (qmap.drop i).take 8 and is forgiving
when the slice runs past the end of the list. -/
def qmapToPlanar (qmap : List Nat) (width height : Nat) : List Nat :=
  (rangeStep height 8).flatMap fun y =>
    (rangeStep width 8).flatMap fun x =>
      (List.range 8).flatMap fun tile_y =>
        let index := (y + tile_y) * width + x
        let line := (qmap.drop index).take 8
        let p := packRow line
        [p.1, p.2]

/-- The png data tuple (width, height, rgba, info) consumed by png_to_gb.
The rgba rows are flat 8-bit RGBA rows, four bytes per pixel; of the info
dictionary the function reads only the optional palette entry. -/
structure PngData where
  width : Nat
  height : Nat
  rgba : List (List Nat)
  palette : Option (List Color)
  deriving Repr

/-- png_to_gb: quantize a png image against its (padded) palette and pack
the result into planar 2bpp, failing exactly where the Python code raises:
at the first pixel color missing from the palette. -/
def png_to_gb (d : PngData) : Except PyErr (List Nat × List Color) := do
  let palette := pad_palette (d.palette.getD [])
  let p := get_unaligned_image_padding d.width d.height 8 8
  let width := d.width + p.1 + p.2.1
  let height := d.height + p.2.2.1 + p.2.2.2
  let body ← quantizeLines palette p.1 p.2.1 d.rgba
  let qmap := List.replicate (width * p.2.2.1) 0 ++ body ++
    List.replicate (width * p.2.2.2) 0
  return (qmapToPlanar qmap width height, palette)

/-- colorAt: the 2-bit index decoded from bit j of the bottom and top bytes. -/
def colorAt (bottom top j : Nat) : Nat :=
  ((bottom >>> j) &&& 1) + (((top >>> j) &&& 1) <<< 1)

/-- The eight indices decoded from one (bottom, top) byte pair, scanning bit
positions 7 down to 0 (Python xrange(7, -1, -1)). -/
def pairToColors (bottom top : Nat) : List Nat :=
  (List.range 8).map fun i => colorAt bottom top (7 - i)

/-- Python zip(*[iter(l)]*2): consecutive pairs, dropping a trailing odd element. -/
def toPairs : List Nat → List (Nat × Nat)
  | a :: b :: rest => (a, b) :: toPairs rest
  | _ => []

/-- The accumulator loop of planar_to_tiles: append eight indices per byte
pair and close a tile every 64 indices; a trailing partial tile is dropped
when the pairs run out before the tile is full. -/
def planarToTilesAux : List (Nat × Nat) → List Nat → List (List Nat)
  | [], _ => []
  | (bottom, top) :: rest, tile =>
    if (tile ++ pairToColors bottom top).length ≥ 64 then
      (tile ++ pairToColors bottom top) :: planarToTilesAux rest []
    else planarToTilesAux rest (tile ++ pairToColors bottom top)

/-- planar_to_tiles: the list of 64-index tiles decoded from a planar 2bpp
buffer. -/
def planar_to_tiles (planar : List Nat) : List (List Nat) :=
  planarToTilesAux (toPairs planar) []

/-- Python truthiness of an optional integer: None and 0 are falsy. -/
def optTruthy : Option Nat → Bool
  | none => false
  | some n => decide (n ≠ 0)

/-- Python int(sqrt(n)): the floor of the square root (the float square root
agrees with the exact one at every realistic buffer size).  The lemma
isqrt_spec below characterizes it. -/
def isqrt : Nat → Nat
  | 0 => 0
  | n + 1 =>
    if (isqrt n + 1) * (isqrt n + 1) ≤ n + 1 then isqrt n + 1 else isqrt n

/-- The inner x loop of gb_to_png, iterated over the x values of Python
xrange(tiles_per_row): concatenate the strip_y-th 8-index strip of each tile
of one tile row, failing like Python when the tile subscript is out of
range.  Python tile slicing is again forgiving drop/take. -/
def build_line (tiles : List (List Nat)) (tile_y strip_y tiles_per_row : Nat) :
    List Nat → Except PyErr (List Nat)
  | [] => .ok []
  | x :: xs => do
    let tile ← list_get tiles (tile_y * tiles_per_row + x)
    let strip := (tile.drop (strip_y * 8)).take 8
    let rest ← build_line tiles tile_y strip_y tiles_per_row xs
    return strip ++ rest

/-- The y loop of gb_to_png, iterated over the y values of Python
xrange(height), building one pixel row of indices per y. -/
def build_rows (tiles : List (List Nat)) (width : Nat) :
    List Nat → Except PyErr (List (List Nat))
  | [] => .ok []
  | y :: ys => do
    let line ← build_line tiles (y / 8) (y % 8) (width / 8) (List.range (width / 8))
    let rest ← build_rows tiles width ys
    return line :: rest

/-- gb_to_png: decode a planar 2bpp buffer into png data (width, height,
index rows, palette), inferring missing dimensions.  Python int(sqrt(n)) is
the float square root truncated to int, modelled by isqrt;Python raises ZeroDivisionError where Nat division
yields 0, which only matters for a division by an inferred width of 0, that
is for an empty tile list with both dimensions absent.  The info dictionary
always receives the padded palette because pad_palette never returns an
empty list. -/
def gb_to_png (planar : List Nat) (widthOpt heightOpt : Option Nat)
    (paletteOpt : Option (List Color)) :
    Except PyErr (Nat × Nat × List (List Nat) × List Color) := do
  let tiles := planar_to_tiles planar
  let width :=
    if optTruthy widthOpt then widthOpt.getD 0
    else if optTruthy heightOpt then tiles.length * 8 / heightOpt.getD 0
    else isqrt tiles.length * 8
  let height :=
    if optTruthy heightOpt then heightOpt.getD 0
    else tiles.length * 8 / width * 8
  let palette := pad_palette (paletteOpt.getD [])
  let lines ← build_rows tiles width (List.range height)
  return (width, height, lines, palette)

/-- gb_2to1: every even-indexed byte (Python two[::2]). -/
def gb_2to1 : List Nat → List Nat
  | [] => []
  | [a] => [a]
  | a :: _ :: rest => a :: gb_2to1 rest

/-- gb_1to2: duplicate every byte into an identical (bottom, top) pair. -/
def gb_1to2 (two : List Nat) : List Nat :=
  two.flatMap fun byte => [byte, byte]

/-- The fixed sample buffer of test_round_trip. -/
def sample_gb : List Nat :=
  [0x28, 0x28, 0x00, 0x00, 0x00, 0x08, 0x04, 0x04,
   0x00, 0x08, 0x00, 0x00, 0x82, 0x82, 0xfc, 0x7c]

/-- Modelled from the spec: the external png collaborator (write_png followed
by read_png, that is the png library, which is not part of this repository)
stores the palette-indexed rows produced by gb_to_png and reads them back as
flat 8-bit RGBA rows, replacing each index by the four channel bytes of its
palette entry, with the palette preserved in the info dictionary. -/
def rowsToRGBA8 (palette : List Color) (rows : List (List Nat)) : List (List Nat) :=
  rows.map fun row => row.flatMap fun i => palette.getD i []

/-- The padded width that png_to_gb works with after applying the padder. -/
def padded_width (d : PngData) : Nat :=
  d.width + (get_unaligned_image_padding d.width d.height 8 8).1 +
    (get_unaligned_image_padding d.width d.height 8 8).2.1

/-- The padded height that png_to_gb works with after applying the padder. -/
def padded_height (d : PngData) : Nat :=
  d.height + (get_unaligned_image_padding d.width d.height 8 8).2.2.1 +
    (get_unaligned_image_padding d.width d.height 8 8).2.2.2

lemma pairToColors_length (b t : Nat) : (pairToColors b t).length = 8 := rfl

lemma colorAt_lt_four (b t j : Nat) : colorAt b t j < 4 := by
  have h1 : (b >>> j) &&& 1 ≤ 1 := Nat.and_le_right
  have h2 : (t >>> j) &&& 1 ≤ 1 := Nat.and_le_right
  simp only [colorAt, Nat.shiftLeft_eq, pow_one]
  omega

lemma pairToColors_lt_four {c b t : Nat} (h : c ∈ pairToColors b t) : c < 4 := by
  simp only [pairToColors, List.mem_map] at h
  obtain ⟨i, -, rfl⟩ := h
  exact colorAt_lt_four b t (7 - i)

lemma toPairs_length : ∀ L : List Nat, (toPairs L).length = L.length / 2
  | [] => rfl
  | [_] => by simp [toPairs]
  | _ :: _ :: rest => by
    have ih := toPairs_length rest
    simp only [toPairs, List.length_cons, ih]
    omega

lemma planarToTilesAux_short : ∀ (ps : List (Nat × Nat)) (tile : List Nat),
    tile.length + 8 * ps.length < 64 → planarToTilesAux ps tile = []
  | [], _, _ => rfl
  | (bo, tp) :: rest, tile, h => by
    simp only [List.length_cons] at h
    have hlen : (tile ++ pairToColors bo tp).length = tile.length + 8 := by
      simp [pairToColors_length]
    simp only [planarToTilesAux]
    rw [if_neg (by omega)]
    exact planarToTilesAux_short rest _ (by rw [hlen]; omega)

lemma planar_to_tiles_short (L : List Nat) (h : L.length < 16) :
    planar_to_tiles L = [] := by
  unfold planar_to_tiles
  apply planarToTilesAux_short
  rw [toPairs_length]
  simp only [List.length_nil]
  omega

lemma planar_to_tiles_cons16 (b0 b1 b2 b3 b4 b5 b6 b7 b8 b9 b10 b11 b12 b13 b14 b15 : Nat)
    (rest : List Nat) :
    planar_to_tiles (b0 :: b1 :: b2 :: b3 :: b4 :: b5 :: b6 :: b7 ::
        b8 :: b9 :: b10 :: b11 :: b12 :: b13 :: b14 :: b15 :: rest) =
      (pairToColors b0 b1 ++ pairToColors b2 b3 ++ pairToColors b4 b5 ++ pairToColors b6 b7 ++
       pairToColors b8 b9 ++ pairToColors b10 b11 ++ pairToColors b12 b13 ++
       pairToColors b14 b15) :: planar_to_tiles rest := rfl

lemma exists_cons16 (L : List Nat) (h : 16 ≤ L.length) :
    ∃ b0 b1 b2 b3 b4 b5 b6 b7 b8 b9 b10 b11 b12 b13 b14 b15 rest,
      L = b0 :: b1 :: b2 :: b3 :: b4 :: b5 :: b6 :: b7 ::
        b8 :: b9 :: b10 :: b11 :: b12 :: b13 :: b14 :: b15 :: rest := by
  rcases L with _ | ⟨b0, _ | ⟨b1, _ | ⟨b2, _ | ⟨b3, _ | ⟨b4, _ | ⟨b5, _ | ⟨b6, _ | ⟨b7,
    _ | ⟨b8, _ | ⟨b9, _ | ⟨b10, _ | ⟨b11, _ | ⟨b12, _ | ⟨b13, _ | ⟨b14, _ | ⟨b15,
    rest⟩⟩⟩⟩⟩⟩⟩⟩⟩⟩⟩⟩⟩⟩⟩⟩ <;>
    simp only [List.length_nil, List.length_cons] at h <;>
    first
      | omega
      | exact ⟨_, _, _, _, _, _, _, _, _, _, _, _, _, _, _, _, _, rfl⟩

lemma planar_to_tiles_spec_aux : ∀ (n : Nat) (L : List Nat), L.length ≤ n →
    (planar_to_tiles L).length = L.length / 16 ∧
    (∀ t ∈ planar_to_tiles L, t.length = 64 ∧ ∀ c ∈ t, c < 4) ∧
    planar_to_tiles L = planar_to_tiles (L.take (16 * (L.length / 16))) := by
  intro n
  induction n with
  | zero =>
    intro L hL
    have h0 : L = [] := List.length_eq_zero.mp (by omega)
    subst h0
    exact ⟨rfl, by simp [planar_to_tiles_short], rfl⟩
  | succ n ih =>
    intro L hL
    by_cases h16 : 16 ≤ L.length
    · obtain ⟨b0, b1, b2, b3, b4, b5, b6, b7, b8, b9, b10, b11, b12, b13, b14, b15,
        rest, rfl⟩ := exists_cons16 L h16
      have hlen : (b0 :: b1 :: b2 :: b3 :: b4 :: b5 :: b6 :: b7 ::
          b8 :: b9 :: b10 :: b11 :: b12 :: b13 :: b14 :: b15 :: rest).length =
          rest.length + 16 := by simp
      have hrest : rest.length ≤ n := by
        rw [hlen] at hL; omega
      obtain ⟨ihl, ihm, iht⟩ := ih rest hrest
      rw [planar_to_tiles_cons16]
      refine ⟨?_, ?_, ?_⟩
      · rw [hlen]
        simp only [List.length_cons, ihl]
        omega
      · intro t ht
        rcases List.mem_cons.mp ht with rfl | ht'
        · constructor
          · simp [pairToColors_length]
          · intro c hc
            simp only [List.mem_append] at hc
            rcases hc with ((((((h | h) | h) | h) | h) | h) | h) | h <;>
              exact pairToColors_lt_four h
        · exact ihm t ht'
      · rw [hlen]
        have harith : 16 * ((rest.length + 16) / 16) = 16 + 16 * (rest.length / 16) := by
          omega
        rw [harith, List.take_add]
        have htake : (b0 :: b1 :: b2 :: b3 :: b4 :: b5 :: b6 :: b7 ::
            b8 :: b9 :: b10 :: b11 :: b12 :: b13 :: b14 :: b15 :: rest).take 16 =
            [b0, b1, b2, b3, b4, b5, b6, b7, b8, b9, b10, b11, b12, b13, b14, b15] := rfl
      
        have hdrop : (b0 :: b1 :: b2 :: b3 :: b4 :: b5 :: b6 :: b7 ::
            b8 :: b9 :: b10 :: b11 :: b12 :: b13 :: b14 :: b15 :: rest).drop 16 = rest := rfl
        rw [htake, hdrop]
        have hjoin : ([b0, b1, b2, b3, b4, b5, b6, b7, b8, b9, b10, b11, b12, b13, b14, b15] ++
            rest.take (16 * (rest.length / 16))) =
            b0 :: b1 :: b2 :: b3 :: b4 :: b5 :: b6 :: b7 ::
            b8 :: b9 :: b10 :: b11 :: b12 :: b13 :: b14 :: b15 ::
            rest.take (16 * (rest.length / 16)) := rfl
        rw [hjoin, planar_to_tiles_cons16, ← iht]
    · have hshort := planar_to_tiles_short L (by omega)
      have hdiv : L.length / 16 = 0 := by omega
      refine ⟨by rw [hshort, hdiv]; rfl, by simp [hshort], ?_⟩
      rw [hshort, hdiv]
      simp [planar_to_tiles_short]

lemma planar_to_tiles_spec (L : List Nat) :
    (planar_to_tiles L).length = L.length / 16 ∧
    (∀ t ∈ planar_to_tiles L, t.length = 64 ∧ ∀ c ∈ t, c < 4) ∧
    planar_to_tiles L = planar_to_tiles (L.take (16 * (L.length / 16))) :=
  planar_to_tiles_spec_aux L.length L le_rfl

/-- Claim C1: decoding the fixed 16-byte sample with gb_to_png (no width,
height or palette, so width = height = 8 is inferred and the default
greyscale palette is used) and re-encoding the resulting image record with
png_to_gb (with the palette metadata carried in the record, expanded to RGBA
rows by the external png collaborator) yields exactly the original 16 bytes. -/
theorem round_trip_sample :
    (match gb_to_png sample_gb none none none with
     | .ok (w, h, rows, pal) => png_to_gb ⟨w, h, rowsToRGBA8 pal rows, some pal⟩
     | .error e => .error e) =
    .ok (sample_gb, pad_palette []) := by rfl

/-- Claim C2 (code bug): the padder is documented to conform dimensions to
the tile dimensions, but at width 9 it returns (1, 0, 0, 0), and the padded
width 9 + 1 + 0 = 10 is not a multiple of 8. -/
theorem padding_misaligns_width9 :
    get_unaligned_image_padding 9 8 8 8 = (1, 0, 0, 0) ∧ (9 + 1 + 0) % 8 ≠ 0 := by
  decide

/-- Claim C3, counterexample: a 17-byte buffer (length not a multiple of 16)
is not rejected by planar_to_tiles; the trailing byte is silently dropped and
the one complete tile is still emitted. -/
theorem unpacker_accepts_unaligned_length :
    (sample_gb ++ [0x99]).length % 16 ≠ 0 ∧
    planar_to_tiles (sample_gb ++ [0x99]) = planar_to_tiles sample_gb ∧
    (planar_to_tiles (sample_gb ++ [0x99])).length = 1 := by decide

/-- Claim C3 (amended): for every buffer whose length is not a multiple of
16, planar_to_tiles raises no error and silently truncates, emitting the
complete tiles of the 16-aligned prefix, floor(length / 16) of them. -/
theorem unpacker_truncates (L : List Nat) (h : L.length % 16 ≠ 0) :
    planar_to_tiles L = planar_to_tiles (L.take (16 * (L.length / 16))) ∧
    (planar_to_tiles L).length = L.length / 16 :=
  ⟨(planar_to_tiles_spec L).2.2, (planar_to_tiles_spec L).1⟩

/-- Witness for unpacker_truncates at the 17-byte buffer. -/
theorem unpacker_truncates_witness :
    planar_to_tiles (sample_gb ++ [0x99]) =
      planar_to_tiles ((sample_gb ++ [0x99]).take
        (16 * ((sample_gb ++ [0x99]).length / 16))) ∧
    (planar_to_tiles (sample_gb ++ [0x99])).length = (sample_gb ++ [0x99]).length / 16 :=
  unpacker_truncates (sample_gb ++ [0x99]) (by decide)

/-- Claim C5, counterexample: decoding a 2-tile (32-byte) buffer with both
width and height absent infers width 8 but height 16, so the inferred width
does not equal the inferred height on this non-perfect-square tile count. -/
theorem infer_dims_two_tiles :
    gb_to_png (List.replicate 32 0) none none none =
      .ok (8, 16, List.replicate 16 (List.replicate 8 0), pad_palette []) ∧
    (8 : Nat) ≠ 16 :=
  ⟨by rfl, by decide⟩

/-- Claim C9: narrowing the result of widening any byte sequence gives back
the sequence element for element, and widening doubles the length. -/
theorem narrow_widen_id (x : List Nat) :
    gb_2to1 (gb_1to2 x) = x ∧ (gb_1to2 x).length = 2 * x.length := by
  induction x with
  | nil => exact ⟨rfl, rfl⟩
  | cons a t ih =>
    have hcons : gb_1to2 (a :: t) = a :: a :: gb_1to2 t := rfl
    constructor
    · rw [hcons]
      show a :: gb_2to1 (gb_1to2 t) = a :: t
      rw [ih.1]
    · rw [hcons]
      simp only [List.length_cons, ih.2]
      omega

/-- Claim C10: for every input buffer, planar_to_tiles returns exactly
floor(length / 16) tiles, every tile has exactly 64 indices all below 4, and
bytes beyond the last complete 16-byte tile contribute nothing (the result
equals the result on the 16-aligned prefix). -/
theorem planar_to_tiles_invariants (L : List Nat) :
    (planar_to_tiles L).length = L.length / 16 ∧
    (∀ t ∈ planar_to_tiles L, t.length = 64 ∧ ∀ c ∈ t, c < 4) ∧
    planar_to_tiles L = planar_to_tiles (L.take (16 * (L.length / 16))) :=
  planar_to_tiles_spec L

/-- Witness for planar_to_tiles_invariants at the sample buffer and its
first tile. -/
theorem planar_to_tiles_invariants_witness :
    (planar_to_tiles sample_gb).length = sample_gb.length / 16 ∧
    ((planar_to_tiles sample_gb).headD []).length = 64 := by
  refine ⟨(planar_to_tiles_invariants sample_gb).1, ?_⟩
  exact ((planar_to_tiles_invariants sample_gb).2.1
    ((planar_to_tiles sample_gb).headD []) (by decide)).1

/-- Claim C4, counterexample: the error raised on an unsupported color does
not carry the pixel coordinates.  Two images whose only red pixel sits at
different coordinates, (0,0) and (1,0), produce identical errors, and that
error is the plain ValueError of list.index carrying only the color. -/
theorem quantize_error_ignores_coordinates :
    png_to_gb ⟨1, 1, [[255, 0, 0, 255]], none⟩ =
      png_to_gb ⟨2, 1, [[255, 255, 255, 255, 255, 0, 0, 255]], none⟩ ∧
    png_to_gb ⟨1, 1, [[255, 0, 0, 255]], none⟩ = .error (.valueError [255, 0, 0, 255]) :=
  ⟨rfl, rfl⟩

lemma isqrt_spec : ∀ n : Nat, isqrt n * isqrt n ≤ n ∧ n < (isqrt n + 1) * (isqrt n + 1)
  | 0 => by constructor <;> simp [isqrt]
  | n + 1 => by
    obtain ⟨h1, h2⟩ := isqrt_spec n
    simp only [isqrt]
    by_cases h : (isqrt n + 1) * (isqrt n + 1) ≤ n + 1
    · rw [if_pos h]
      refine ⟨h, ?_⟩
      have hXY : (isqrt n + 1) * (isqrt n + 1) < (isqrt n + 1 + 1) * (isqrt n + 1 + 1) := by
        nlinarith
      omega
    · rw [if_neg h]
      exact ⟨le_trans h1 (Nat.le_succ n), by omega⟩

lemma isqrt_pos {n : Nat} (h : 1 ≤ n) : 1 ≤ isqrt n := by
  by_contra h0
  have h1 : isqrt n = 0 := by omega
  have h2 := (isqrt_spec n).2
  rw [h1] at h2
  omega

lemma colorAt_low (bo tp j : Nat) : colorAt bo tp j &&& 1 = (bo >>> j) &&& 1 := by
  have hx : (bo >>> j) &&& 1 ≤ 1 := Nat.and_le_right
  have hy : (tp >>> j) &&& 1 ≤ 1 := Nat.and_le_right
  simp only [colorAt, Nat.shiftLeft_eq, Nat.and_one_is_mod, pow_one]
  omega

lemma colorAt_high (bo tp j : Nat) : (colorAt bo tp j >>> 1) &&& 1 = (tp >>> j) &&& 1 := by
  have hx : (bo >>> j) &&& 1 ≤ 1 := Nat.and_le_right
  have hy : (tp >>> j) &&& 1 ≤ 1 := Nat.and_le_right
  simp only [colorAt, Nat.shiftLeft_eq, Nat.shiftRight_eq_div_pow, Nat.and_one_is_mod,
    pow_one]
  omega

lemma packRow_pairToColors (bo tp : Nat) (h1 : bo < 256) (h2 : tp < 256) :
    packRow (pairToColors bo tp) = (bo, tp) := by
  have e2 : packRow (pairToColors bo tp) =
      (0 + (colorAt bo tp 7 &&& 1) <<< 7 + (colorAt bo tp 6 &&& 1) <<< 6 +
         (colorAt bo tp 5 &&& 1) <<< 5 + (colorAt bo tp 4 &&& 1) <<< 4 +
         (colorAt bo tp 3 &&& 1) <<< 3 + (colorAt bo tp 2 &&& 1) <<< 2 +
         (colorAt bo tp 1 &&& 1) <<< 1 + (colorAt bo tp 0 &&& 1) <<< 0,
       0 + ((colorAt bo tp 7 >>> 1) &&& 1) <<< 7 + ((colorAt bo tp 6 >>> 1) &&& 1) <<< 6 +
         ((colorAt bo tp 5 >>> 1) &&& 1) <<< 5 + ((colorAt bo tp 4 >>> 1) &&& 1) <<< 4 +
         ((colorAt bo tp 3 >>> 1) &&& 1) <<< 3 + ((colorAt bo tp 2 >>> 1) &&& 1) <<< 2 +
         ((colorAt bo tp 1 >>> 1) &&& 1) <<< 1 + ((colorAt bo tp 0 >>> 1) &&& 1) <<< 0) := rfl
  rw [e2]
  simp only [colorAt_low, colorAt_high, Prod.mk.injEq]
  constructor
  · simp only [Nat.shiftLeft_eq, Nat.shiftRight_eq_div_pow, Nat.and_one_is_mod]
    norm_num
    omega
  · simp only [Nat.shiftLeft_eq, Nat.shiftRight_eq_div_pow, Nat.and_one_is_mod]
    norm_num
    omega

lemma flatMap_map_eq {α β γ : Type} (l : List α) (g : α → β) (f : β → List γ) :
    (l.map g).flatMap f = l.flatMap fun a => f (g a) := by
  induction l with
  | nil => rfl
  | cons a t ih => simp only [List.map_cons, List.flatMap_cons, ih]

lemma flatMap_congr_mem {α β : Type} {l : List α} {f g : α → List β}
    (h : ∀ a ∈ l, f a = g a) : l.flatMap f = l.flatMap g := by
  induction l with
  | nil => rfl
  | cons a t ih =>
    simp only [List.flatMap_cons]
    rw [h a (List.mem_cons_self a t), ih fun x hx => h x (List.mem_cons_of_mem a hx)]

lemma rangeStep_eight : rangeStep 8 8 = [0] := rfl

lemma rangeStep_succ_mul (k : Nat) :
    rangeStep (8 * (k + 1)) 8 = 0 :: (rangeStep (8 * k) 8).map (· + 8) := by
  unfold rangeStep
  have h1 : (8 * (k + 1) + 8 - 1) / 8 = k + 1 := by omega
  have h2 : (8 * k + 8 - 1) / 8 = k := by omega
  rw [h1, h2, List.range_succ_eq_map]
  simp only [List.map_cons, List.map_map, Nat.zero_mul]
  congr 1
  apply List.map_congr_left
  intro a _
  show (a + 1) * 8 = a * 8 + 8
  ring

lemma qmapToPlanar_width8_step (q : List Nat) (k : Nat) :
    qmapToPlanar q 8 (8 * (k + 1)) =
      ((List.range 8).flatMap fun tile_y =>
        [(packRow ((q.drop ((0 + tile_y) * 8 + 0)).take 8)).1,
         (packRow ((q.drop ((0 + tile_y) * 8 + 0)).take 8)).2]) ++
      qmapToPlanar (q.drop 64) 8 (8 * k) := by
  simp only [qmapToPlanar]
  rw [rangeStep_succ_mul, List.flatMap_cons, flatMap_map_eq, rangeStep_eight]
  simp only [List.flatMap_cons, List.flatMap_nil, List.append_nil]
  congr 1
  apply flatMap_congr_mem
  intro y _
  apply flatMap_congr_mem
  intro ty _
  rw [List.drop_drop]
  have harith : (y + 8 + ty) * 8 + 0 = 64 + ((y + ty) * 8 + 0) := by ring
  rw [harith]

lemma pack_head_block (b0 b1 b2 b3 b4 b5 b6 b7 b8 b9 b10 b11 b12 b13 b14 b15 : Nat)
    (F : List Nat) (hb0 : b0 < 256) (hb1 : b1 < 256) (hb2 : b2 < 256) (hb3 : b3 < 256)
    (hb4 : b4 < 256) (hb5 : b5 < 256) (hb6 : b6 < 256) (hb7 : b7 < 256)
    (hb8 : b8 < 256) (hb9 : b9 < 256) (hb10 : b10 < 256) (hb11 : b11 < 256)
    (hb12 : b12 < 256) (hb13 : b13 < 256) (hb14 : b14 < 256) (hb15 : b15 < 256) :
    ((List.range 8).flatMap fun tile_y =>
      [(packRow ((((pairToColors b0 b1 ++ pairToColors b2 b3 ++ pairToColors b4 b5 ++
          pairToColors b6 b7 ++ pairToColors b8 b9 ++ pairToColors b10 b11 ++
          pairToColors b12 b13 ++ pairToColors b14 b15) ++ F).drop
            ((0 + tile_y) * 8 + 0)).take 8)).1,
       (packRow ((((pairToColors b0 b1 ++ pairToColors b2 b3 ++ pairToColors b4 b5 ++
          pairToColors b6 b7 ++ pairToColors b8 b9 ++ pairToColors b10 b11 ++
          pairToColors b12 b13 ++ pairToColors b14 b15) ++ F).drop
            ((0 + tile_y) * 8 + 0)).take 8)).2]) =
    [b0, b1, b2, b3, b4, b5, b6, b7, b8, b9, b10, b11, b12, b13, b14, b15] := by
  trans [(packRow (pairToColors b0 b1)).1, (packRow (pairToColors b0 b1)).2,
         (packRow (pairToColors b2 b3)).1, (packRow (pairToColors b2 b3)).2,
         (packRow (pairToColors b4 b5)).1, (packRow (pairToColors b4 b5)).2,
         (packRow (pairToColors b6 b7)).1, (packRow (pairToColors b6 b7)).2,
         (packRow (pairToColors b8 b9)).1, (packRow (pairToColors b8 b9)).2,
         (packRow (pairToColors b10 b11)).1, (packRow (pairToColors b10 b11)).2,
         (packRow (pairToColors b12 b13)).1, (packRow (pairToColors b12 b13)).2,
         (packRow (pairToColors b14 b15)).1, (packRow (pairToColors b14 b15)).2]
  · rfl
  · rw [packRow_pairToColors b0 b1 hb0 hb1, packRow_pairToColors b2 b3 hb2 hb3,
      packRow_pairToColors b4 b5 hb4 hb5, packRow_pairToColors b6 b7 hb6 hb7,
      packRow_pairToColors b8 b9 hb8 hb9, packRow_pairToColors b10 b11 hb10 hb11,
      packRow_pairToColors b12 b13 hb12 hb13, packRow_pairToColors b14 b15 hb14 hb15]

lemma pack_unpack_aux : ∀ (k : Nat) (L : List Nat), L.length = 16 * k →
    (∀ b ∈ L, b < 256) →
    qmapToPlanar ((planar_to_tiles L).flatten) 8 (8 * (planar_to_tiles L).length) = L := by
  intro k
  induction k with
  | zero =>
    intro L hlen _
    have h0 : L = [] := List.length_eq_zero.mp (by omega)
    subst h0
    rfl
  | succ k ih =>
    intro L hlen hb
    obtain ⟨b0, b1, b2, b3, b4, b5, b6, b7, b8, b9, b10, b11, b12, b13, b14, b15,
      rest, rfl⟩ := exists_cons16 L (by omega)
    have hrl : rest.length = 16 * k := by
      simp only [List.length_cons] at hlen
      omega
    have hbrest : ∀ b ∈ rest, b < 256 := fun x hx => hb x (by simp [hx])
    rw [planar_to_tiles_cons16, List.flatten_cons, List.length_cons,
      qmapToPlanar_width8_step]
    have hdrop64 : ((pairToColors b0 b1 ++ pairToColors b2 b3 ++ pairToColors b4 b5 ++
        pairToColors b6 b7 ++ pairToColors b8 b9 ++ pairToColors b10 b11 ++
        pairToColors b12 b13 ++ pairToColors b14 b15) ++
          (planar_to_tiles rest).flatten).drop 64 = (planar_to_tiles rest).flatten := by
      rw [show (64 : Nat) = (pairToColors b0 b1 ++ pairToColors b2 b3 ++
        pairToColors b4 b5 ++ pairToColors b6 b7 ++ pairToColors b8 b9 ++
        pairToColors b10 b11 ++ pairToColors b12 b13 ++ pairToColors b14 b15).length
        from rfl]
      exact List.drop_left _ _
    rw [hdrop64, ih rest hrl hbrest,
      pack_head_block b0 b1 b2 b3 b4 b5 b6 b7 b8 b9 b10 b11 b12 b13 b14 b15
        ((planar_to_tiles rest).flatten)
        (hb b0 (by simp)) (hb b1 (by simp)) (hb b2 (by simp)) (hb b3 (by simp))
        (hb b4 (by simp)) (hb b5 (by simp)) (hb b6 (by simp)) (hb b7 (by simp))
        (hb b8 (by simp)) (hb b9 (by simp)) (hb b10 (by simp)) (hb b11 (by simp))
        (hb b12 (by simp)) (hb b13 (by simp)) (hb b14 (by simp)) (hb b15 (by simp))]
    rfl

/-- Claim C6: the planar packer of png_to_gb is the inverse of the planar
unpacker.  For every byte buffer whose length is a multiple of 16, packing
the tiles produced by unpacking it, laid out as the quantized map of a
one-tile-wide image, reproduces the buffer exactly. -/
theorem pack_unpack_inverse (b : List Nat) (h16 : b.length % 16 = 0)
    (hbytes : ∀ x ∈ b, x < 256) :
    qmapToPlanar ((planar_to_tiles b).flatten) 8 (8 * (planar_to_tiles b).length) = b :=
  pack_unpack_aux (b.length / 16) b (by omega) hbytes

/-- Witness for pack_unpack_inverse at the sample buffer. -/
theorem pack_unpack_inverse_witness :
    qmapToPlanar ((planar_to_tiles sample_gb).flatten) 8
      (8 * (planar_to_tiles sample_gb).length) = sample_gb :=
  pack_unpack_inverse sample_gb (by decide) (by decide)

lemma flatMap_length_const {α : Type} (l : List α) (f : α → List Nat) (c : Nat)
    (h : ∀ a ∈ l, (f a).length = c) : (l.flatMap f).length = l.length * c := by
  induction l with
  | nil => simp
  | cons a t ih =>
    simp only [List.flatMap_cons, List.length_append, List.length_cons]
    rw [h a (List.mem_cons_self a t), ih fun x hx => h x (List.mem_cons_of_mem a hx)]
    ring

lemma rangeStep_length (stop step : Nat) :
    (rangeStep stop step).length = (stop + step - 1) / step := by
  simp [rangeStep]

lemma qmapToPlanar_length (q : List Nat) (w h : Nat) :
    (qmapToPlanar q w h).length = 16 * (((h + 7) / 8) * ((w + 7) / 8)) := by
  unfold qmapToPlanar
  rw [flatMap_length_const _ _ (16 * ((w + 7) / 8))]
  · rw [rangeStep_length]
    have e1 : h + 8 - 1 = h + 7 := by omega
    rw [e1]
    ring
  · intro y _
    rw [flatMap_length_const _ _ 16]
    · rw [rangeStep_length]
      have e2 : w + 8 - 1 = w + 7 := by omega
      rw [e2]
      ring
    · intro x _
      rw [flatMap_length_const _ _ 2]
      · simp
      · intro ty _
        rfl

/-- Claim C7: every successful encode produces a buffer whose length is a
multiple of 16, and exactly 16 times the number of 8-pixel row blocks times
the number of 8-pixel column blocks that the packer iterates over the padded
dimensions. -/
theorem encode_length (d : PngData) (planar : List Nat) (pal : List Color)
    (h : png_to_gb d = .ok (planar, pal)) :
    planar.length = 16 * (((padded_height d + 7) / 8) * ((padded_width d + 7) / 8)) ∧
    planar.length % 16 = 0 := by
  simp only [png_to_gb] at h
  cases hq : quantizeLines (pad_palette (d.palette.getD []))
      (get_unaligned_image_padding d.width d.height 8 8).1
      (get_unaligned_image_padding d.width d.height 8 8).2.1 d.rgba with
  | error e =>
    rw [hq] at h
    simp [Bind.bind, Except.bind] at h
  | ok body =>
    rw [hq] at h
    simp only [Bind.bind, Except.bind, pure, Except.pure, Except.ok.injEq,
      Prod.mk.injEq] at h
    obtain ⟨hplanar, -⟩ := h
    rw [← hplanar, qmapToPlanar_length]
    refine ⟨?_, by omega⟩
    simp only [padded_width, padded_height]

/-- Witness for encode_length at an all-white 8 by 8 image. -/
theorem encode_length_witness :
    (List.replicate 16 0 : List Nat).length =
      16 * (((padded_height ⟨8, 8, List.replicate 8 (List.replicate 32 255), none⟩ + 7) / 8) *
            ((padded_width ⟨8, 8, List.replicate 8 (List.replicate 32 255), none⟩ + 7) / 8)) ∧
    (List.replicate 16 0 : List Nat).length % 16 = 0 :=
  encode_length ⟨8, 8, List.replicate 8 (List.replicate 32 255), none⟩
    (List.replicate 16 0) (pad_palette []) (by rfl)

lemma nodup_subset_length {l m : List Color} (h : l.Nodup) (hs : ∀ x ∈ l, x ∈ m) :
    l.length ≤ m.length := by
  have h1 : l.toFinset.card = l.length := List.toFinset_card_of_nodup h
  have h2 : l.toFinset ⊆ m.toFinset := by
    intro x hx
    simp only [List.mem_toFinset] at hx ⊢
    exact hs x hx
  have h3 := Finset.card_le_card h2
  have h4 := List.toFinset_card_le m
  omega

lemma padLoop_eq : ∀ (hues : List Color), hues.Nodup → ∀ palette : List Color,
    padLoop hues palette =
      palette ++ (hues.filter (· ∉ palette)).take (4 - palette.length) := by
  intro hues
  induction hues with
  | nil =>
    intro _ pal
    simp [padLoop]
  | cons hue rest ih =>
    intro hnd pal
    obtain ⟨hni, hnd'⟩ := List.nodup_cons.mp hnd
    by_cases h4 : pal.length ≥ 4
    · simp only [padLoop]
      rw [if_pos h4]
      have h0 : 4 - pal.length = 0 := by omega
      simp [h0]
    · simp only [padLoop]
      rw [if_neg h4]
      by_cases hmem : hue ∈ pal
      · rw [if_pos hmem, ih hnd' pal]
        have hfc : (hue :: rest).filter (· ∉ pal) = rest.filter (· ∉ pal) := by
          rw [List.filter_cons]
          simp [hmem]
        rw [hfc]
      · rw [if_neg hmem, ih hnd' (pal ++ [hue])]
        have hfil : rest.filter (· ∉ pal ++ [hue]) = rest.filter (· ∉ pal) := by
          apply List.filter_congr
          intro x hx
          have hne : x ≠ hue := fun e => hni (e ▸ hx)
          simp [List.mem_append, hne]
        have hfc : (hue :: rest).filter (· ∉ pal) = hue :: rest.filter (· ∉ pal) := by
          rw [List.filter_cons]
          simp [hmem]
        rw [hfil, hfc]
        have hlen : (pal ++ [hue]).length = pal.length + 1 := by simp
        rw [hlen]
        have h45 : 4 - pal.length = (4 - (pal.length + 1)) + 1 := by omega
        rw [h45, List.take_succ_cons]
        simp [List.append_assoc]

lemma greyscale_nodup : greyscale.Nodup := by decide

/-- Claim C8: the palette normalizer returns exactly 4 entries for every
palette of at most 4 entries; an empty (or absent) palette yields the
greyscale ramp sorted descending [white, gray, grey, black]; a non-empty
palette is extended with the ramp colors not already present, tried in the
fixed source order [white, black, grey, gray], skipping duplicates; a
4-entry palette is returned unchanged.  It is a total function, so it never
fails. -/
theorem pad_palette_spec (palette : List Color) (h4 : palette.length ≤ 4) :
    (pad_palette palette).length = 4 ∧
    (palette = [] →
      pad_palette palette =
        [[0xff, 0xff, 0xff, 0xff], [0xaa, 0xaa, 0xaa, 0xff],
         [0x55, 0x55, 0x55, 0xff], [0x00, 0x00, 0x00, 0xff]]) ∧
    (palette ≠ [] →
      pad_palette palette =
        palette ++ (greyscale.filter (· ∉ palette)).take (4 - palette.length)) ∧
    (palette.length = 4 → pad_palette palette = palette) := by
  by_cases hemp : palette = []
  · subst hemp
    refine ⟨rfl, fun _ => rfl, fun hne => absurd rfl hne, fun hl => by simp at hl⟩
  · have hchar : pad_palette palette =
        palette ++ (greyscale.filter (· ∉ palette)).take (4 - palette.length) := by
      unfold pad_palette
      rw [if_neg hemp]
      exact padLoop_eq greyscale greyscale_nodup palette
    have hinlen : (greyscale.filter (· ∈ palette)).length ≤ palette.length := by
      apply nodup_subset_length (greyscale_nodup.filter _)
      intro x hx
      simp only [List.mem_filter, decide_eq_true_eq] at hx
      exact hx.2
    have hgen : ∀ l : List Color,
        (l.filter (· ∉ palette)).length + (l.filter (· ∈ palette)).length = l.length := by
      intro l
      induction l with
      | nil => rfl
      | cons a t iht =>
        rw [List.filter_cons, List.filter_cons]
        by_cases hm : a ∈ palette
        · rw [if_neg (by simp [hm]), if_pos (by simp [hm])]
          simp only [List.length_cons]
          omega
        · rw [if_pos (by simp [hm]), if_neg (by simp [hm])]
          simp only [List.length_cons]
          omega
    have hsplit : (greyscale.filter (· ∉ palette)).length +
        (greyscale.filter (· ∈ palette)).length = 4 := hgen greyscale
    have hlen4 : (pad_palette palette).length = 4 := by
      rw [hchar]
      simp only [List.length_append, List.length_take]
      omega
    refine ⟨hlen4, fun he => absurd he hemp, fun _ => hchar, fun hl4 => ?_⟩
    rw [hchar, hl4]
    simp

/-- Witness for pad_palette_spec at the one-entry palette [black]. -/
theorem pad_palette_spec_witness : (pad_palette [[0, 0, 0, 255]]).length = 4 :=
  (pad_palette_spec [[0, 0, 0, 255]] (by decide)).1

lemma list_index_ok_of_mem : ∀ {pal : List Color} {c : Color}, c ∈ pal →
    ∃ i, list_index pal c = .ok i := by
  intro pal
  induction pal with
  | nil => intro c h; simp at h
  | cons p rest ih =>
    intro c h
    by_cases hpc : p = c
    · exact ⟨0, by simp [list_index, hpc]⟩
    · rcases List.mem_cons.mp h with h1 | h2
      · exact absurd h1.symm hpc
      · obtain ⟨i, hi⟩ := ih h2
        exact ⟨i + 1, by simp [list_index, hpc, hi, Except.map]⟩

lemma list_index_error_of_not_mem : ∀ {pal : List Color} {c : Color}, c ∉ pal →
    list_index pal c = .error (.valueError c) := by
  intro pal
  induction pal with
  | nil => intro c _; rfl
  | cons p rest ih =>
    intro c h
    have hpc : p ≠ c := fun e => h (by simp [e])
    have hcr : c ∉ rest := fun hr => h (by simp [hr])
    simp [list_index, hpc, ih hcr, Except.map]

lemma list_index_error_shape {pal : List Color} {c : Color} {e : PyErr}
    (h : list_index pal c = .error e) : c ∉ pal ∧ e = .valueError c := by
  by_cases hmem : c ∈ pal
  · obtain ⟨i, hi⟩ := list_index_ok_of_mem hmem
    rw [hi] at h
    exact Except.noConfusion h
  · rw [list_index_error_of_not_mem hmem] at h
    cases h
    exact ⟨hmem, rfl⟩

lemma quantizeLine_error_shape (pal : List Color) : ∀ (row : List Nat) (e : PyErr),
    quantizeLine pal row = .error e → ∃ c, c ∉ pal ∧ e = .valueError c
  | [], e, h => by simp [quantizeLine] at h
  | a :: b :: c :: d :: rest, e, h => by
    simp only [quantizeLine, Bind.bind, Except.bind] at h
    cases hidx : list_index pal [a, b, c, d] with
    | error e' =>
      rw [hidx] at h
      obtain ⟨hnm, he'⟩ := list_index_error_shape hidx
      cases h
      exact ⟨[a, b, c, d], hnm, he'⟩
    | ok i =>
      rw [hidx] at h
      cases hq : quantizeLine pal rest with
      | error e'' =>
        rw [hq] at h
        cases h
        exact quantizeLine_error_shape pal rest e hq
      | ok q =>
        rw [hq] at h
        simp [pure, Except.pure] at h
  | [a], e, h => by
    simp only [quantizeLine, Bind.bind, Except.bind] at h
    cases hidx : list_index pal [a] with
    | error e' =>
      rw [hidx] at h
      obtain ⟨hnm, he'⟩ := list_index_error_shape hidx
      cases h
      exact ⟨[a], hnm, he'⟩
    | ok i =>
      rw [hidx] at h
      simp [pure, Except.pure] at h
  | [a, b], e, h => by
    simp only [quantizeLine, Bind.bind, Except.bind] at h
    cases hidx : list_index pal [a, b] with
    | error e' =>
      rw [hidx] at h
      obtain ⟨hnm, he'⟩ := list_index_error_shape hidx
      cases h
      exact ⟨[a, b], hnm, he'⟩
    | ok i =>
      rw [hidx] at h
      simp [pure, Except.pure] at h
  | [a, b, c], e, h => by
    simp only [quantizeLine, Bind.bind, Except.bind] at h
    cases hidx : list_index pal [a, b, c] with
    | error e' =>
      rw [hidx] at h
      obtain ⟨hnm, he'⟩ := list_index_error_shape hidx
      cases h
      exact ⟨[a, b, c], hnm, he'⟩
    | ok i =>
      rw [hidx] at h
      simp [pure, Except.pure] at h

lemma quantizeLine_error_of_bad (pal : List Color) : ∀ (row : List Nat),
    (∃ k, 4 * k < row.length ∧ (row.drop (4 * k)).take 4 ∉ pal) →
    ∃ c, c ∉ pal ∧ quantizeLine pal row = .error (.valueError c)
  | [], h => by
    obtain ⟨k, hk, -⟩ := h
    simp at hk
  | a :: b :: c :: d :: rest, h => by
    by_cases h0 : [a, b, c, d] ∈ pal
    · obtain ⟨k, hk, hbad⟩ := h
      have hk0 : k ≠ 0 := by
        intro e
        subst e
        exact hbad (by simpa using h0)
      obtain ⟨k', rfl⟩ : ∃ k', k = k' + 1 := ⟨k - 1, by omega⟩
      have hdrop : (a :: b :: c :: d :: rest).drop (4 * (k' + 1)) = rest.drop (4 * k') := by
        have e4 : 4 * (k' + 1) = 4 + 4 * k' := by ring
        rw [e4, ← List.drop_drop]
        rfl
      have hk'len : 4 * k' < rest.length := by
        simp only [List.length_cons] at hk
        omega
      obtain ⟨c0, hc0, he⟩ := quantizeLine_error_of_bad pal rest
        ⟨k', hk'len, by rw [← hdrop]; exact hbad⟩
      obtain ⟨i, hi⟩ := list_index_ok_of_mem h0
      exact ⟨c0, hc0, by simp only [quantizeLine, Bind.bind, Except.bind, hi, he]⟩
    · exact ⟨[a, b, c, d], h0, by
        simp only [quantizeLine, Bind.bind, Except.bind,
          list_index_error_of_not_mem h0]⟩
  | [a], h => by
    obtain ⟨k, hk, hbad⟩ := h
    have hk0 : k = 0 := by simp at hk; omega
    subst hk0
    have hb : [a] ∉ pal := by simpa using hbad
    exact ⟨[a], hb, by
      simp only [quantizeLine, Bind.bind, Except.bind, list_index_error_of_not_mem hb]⟩
  | [a, b], h => by
    obtain ⟨k, hk, hbad⟩ := h
    have hk0 : k = 0 := by simp at hk; omega
    subst hk0
    have hb : [a, b] ∉ pal := by simpa using hbad
    exact ⟨[a, b], hb, by
      simp only [quantizeLine, Bind.bind, Except.bind, list_index_error_of_not_mem hb]⟩
  | [a, b, c], h => by
    obtain ⟨k, hk, hbad⟩ := h
    have hk0 : k = 0 := by simp at hk; omega
    subst hk0
    have hb : [a, b, c] ∉ pal := by simpa using hbad
    exact ⟨[a, b, c], hb, by
      simp only [quantizeLine, Bind.bind, Except.bind, list_index_error_of_not_mem hb]⟩

lemma quantizeLines_error_of_bad (pal : List Color) (left right : Nat) :
    ∀ (rows : List (List Nat)),
    (∃ row ∈ rows, ∃ k, 4 * k < row.length ∧ (row.drop (4 * k)).take 4 ∉ pal) →
    ∃ c, c ∉ pal ∧ quantizeLines pal left right rows = .error (.valueError c)
  | [], h => by
    obtain ⟨row, hmem, -⟩ := h
    simp at hmem
  | row :: rest, h => by
    cases hq : quantizeLine pal row with
    | error e =>
      obtain ⟨c, hc, he⟩ := quantizeLine_error_shape pal row e hq
      subst he
      exact ⟨c, hc, by simp only [quantizeLines, Bind.bind, Except.bind, hq]⟩
    | ok q =>
      obtain ⟨row', hmem, k, hk, hbad⟩ := h
      rcases List.mem_cons.mp hmem with rfl | hmem'
      · obtain ⟨c, hc, he⟩ := quantizeLine_error_of_bad pal row' ⟨k, hk, hbad⟩
        rw [he] at hq
        exact Except.noConfusion hq
      · obtain ⟨c, hc, he⟩ := quantizeLines_error_of_bad pal left right rest
          ⟨row', hmem', k, hk, hbad⟩
        exact ⟨c, hc, by simp only [quantizeLines, Bind.bind, Except.bind, hq, he]⟩

/-- Claim C4 (amended): whenever some pixel tuple of some rgba row is absent
from the padded palette, png_to_gb fails with the ValueError of list.index,
which carries the offending color but not its pixel coordinates, and the
conversion returns no output at all; the nearest palette color is never
substituted. -/
theorem quantize_rejects_unknown_color (d : PngData)
    (hbad : ∃ row ∈ d.rgba, ∃ k, 4 * k < row.length ∧
      ((row.drop (4 * k)).take 4) ∉ pad_palette (d.palette.getD [])) :
    ∃ c, c ∉ pad_palette (d.palette.getD []) ∧
      png_to_gb d = .error (.valueError c) := by
  obtain ⟨c, hc, he⟩ := quantizeLines_error_of_bad (pad_palette (d.palette.getD []))
    (get_unaligned_image_padding d.width d.height 8 8).1
    (get_unaligned_image_padding d.width d.height 8 8).2.1 d.rgba hbad
  exact ⟨c, hc, by simp only [png_to_gb, Bind.bind, Except.bind, he]⟩

/-- Witness for quantize_rejects_unknown_color at a one-pixel red image. -/
theorem quantize_rejects_unknown_color_witness :
    ∃ c, c ∉ pad_palette [] ∧
      png_to_gb ⟨1, 1, [[255, 0, 0, 255]], none⟩ = .error (.valueError c) :=
  quantize_rejects_unknown_color ⟨1, 1, [[255, 0, 0, 255]], none⟩
    ⟨[255, 0, 0, 255], by simp, 0, by decide, by decide⟩

lemma list_get_ok {α : Type} : ∀ (l : List α) (i : Nat), i < l.length →
    ∃ a, list_get l i = .ok a
  | [], i, h => absurd h (by simp)
  | a :: _, 0, _ => ⟨a, rfl⟩
  | _ :: rest, i + 1, h => list_get_ok rest i (by simpa using h)

lemma build_line_ok (tiles : List (List Nat)) (tile_y strip_y tpr : Nat) :
    ∀ (xs : List Nat), (∀ x ∈ xs, tile_y * tpr + x < tiles.length) →
    ∃ l, build_line tiles tile_y strip_y tpr xs = .ok l
  | [], _ => ⟨[], rfl⟩
  | x :: xs, h => by
    obtain ⟨tile, htile⟩ := list_get_ok tiles _ (h x (by simp))
    obtain ⟨l, hl⟩ := build_line_ok tiles tile_y strip_y tpr xs
      fun x' hx' => h x' (by simp [hx'])
    exact ⟨(tile.drop (strip_y * 8)).take 8 ++ l, by
      simp only [build_line, Bind.bind, Except.bind, htile, hl, pure, Except.pure]⟩

lemma build_rows_ok (tiles : List (List Nat)) (width : Nat) :
    ∀ (ys : List Nat),
    (∀ y ∈ ys, ∀ x ∈ List.range (width / 8), y / 8 * (width / 8) + x < tiles.length) →
    ∃ rows, build_rows tiles width ys = .ok rows
  | [], _ => ⟨[], rfl⟩
  | y :: ys, h => by
    obtain ⟨line, hline⟩ := build_line_ok tiles (y / 8) (y % 8) (width / 8)
      (List.range (width / 8))
      (fun x hx => h y (by simp) x hx)
    obtain ⟨rows, hrows⟩ := build_rows_ok tiles width ys
      fun y' hy' x hx => h y' (by simp [hy']) x hx
    exact ⟨line :: rows, by
      simp only [build_rows, Bind.bind, Except.bind, hline, hrows, pure, Except.pure]⟩

/-- Claim C5 (amended): decoding a planar buffer of at least one tile with
both width and height absent infers width = floor(sqrt(tile_count)) * 8 but
height = ((tile_count * 8) / width) * 8 with truncating division, which need
not equal the width (2 tiles give 8 by 16); the decode succeeds and returns
these dimensions together with the default palette. -/
theorem infer_dims_both_absent (planar : List Nat) (hlen : 16 ≤ planar.length) :
    ∃ rows, gb_to_png planar none none none =
      .ok (isqrt (planar_to_tiles planar).length * 8,
           (planar_to_tiles planar).length * 8 /
             (isqrt (planar_to_tiles planar).length * 8) * 8,
           rows, pad_palette []) := by
  have hn1 : 1 ≤ (planar_to_tiles planar).length := by
    rw [(planar_to_tiles_spec planar).1]
    omega
  have hs1 : 1 ≤ isqrt (planar_to_tiles planar).length := isqrt_pos hn1
  have hs8 : isqrt (planar_to_tiles planar).length * 8 / 8 =
      isqrt (planar_to_tiles planar).length := Nat.mul_div_cancel _ (by norm_num)
  have hh : (planar_to_tiles planar).length * 8 /
      (isqrt (planar_to_tiles planar).length * 8) =
      (planar_to_tiles planar).length / isqrt (planar_to_tiles planar).length :=
    Nat.mul_div_mul_right _ _ (by norm_num)
  obtain ⟨rows, hrows⟩ := build_rows_ok (planar_to_tiles planar)
    (isqrt (planar_to_tiles planar).length * 8)
    (List.range ((planar_to_tiles planar).length * 8 /
      (isqrt (planar_to_tiles planar).length * 8) * 8))
    (by
      intro y hy x hx
      rw [List.mem_range] at hy hx
      rw [hs8] at hx
      rw [hh] at hy
      have hy8 : y / 8 < (planar_to_tiles planar).length /
          isqrt (planar_to_tiles planar).length :=
        (Nat.div_lt_iff_lt_mul (by norm_num)).mpr hy
      have hmul : (y / 8 + 1) * isqrt (planar_to_tiles planar).length ≤
          (planar_to_tiles planar).length / isqrt (planar_to_tiles planar).length *
            isqrt (planar_to_tiles planar).length :=
        Nat.mul_le_mul_right _ (by omega)
      have hdm := Nat.div_mul_le_self (planar_to_tiles planar).length
        (isqrt (planar_to_tiles planar).length)
      have hexp : (y / 8 + 1) * isqrt (planar_to_tiles planar).length =
          y / 8 * isqrt (planar_to_tiles planar).length +
          isqrt (planar_to_tiles planar).length := by ring
      rw [hs8]
      omega)
  refine ⟨rows, ?_⟩
  simp only [gb_to_png, optTruthy, Bind.bind, Except.bind, Bool.false_eq_true,
    if_false, Option.getD_none, hrows, pure, Except.pure]

/-- Witness for infer_dims_both_absent at a 2-tile all-zero buffer. -/
theorem infer_dims_both_absent_witness :
    ∃ rows, gb_to_png (List.replicate 32 0) none none none =
      .ok (isqrt (planar_to_tiles (List.replicate 32 0)).length * 8,
           (planar_to_tiles (List.replicate 32 0)).length * 8 /
             (isqrt (planar_to_tiles (List.replicate 32 0)).length * 8) * 8,
           rows, pad_palette []) :=
  infer_dims_both_absent (List.replicate 32 0) (by decide)
